import Mathlib

/-!
Shallow embedding of the core of the `postcss-mixins-autocomplete` VS Code
extension (`src/extension.ts`): the CSS-class extractor (`CLASS_REGEX` and
`CssClassExtractor.extractClassNames`), the per-file symbol registry
(`CssClassExtractor.updateCssClassesForFile` / `removeCssClassesForFile` /
`items`), the lexical context detector
(`CssClassCompletionProvider.isInContext` with its quote-balance regex
`UP_TO_UNMATCHED_QUOTE_REGEX`, attribute regex `ENDS_WITH_ATTR_REGEX`, paren
tokenizer `PARENS_REGEX` and `MAX_LOOKBACK_LINES` bound), and the completion
assembler.  Strings are modelled as `List Char`; documents as lists of lines.
-/

set_option maxRecDepth 8192

namespace CssAc

abbrev Str := List Char

/-! Extractor: `CLASS_REGEX = /\.([a-zA-Z][a-zA-Z0-9_-]*)/g` and
`extractClassNames` (extension.ts lines 19, 41-44).

`content.match(CLASS_REGEX)` scans left to right for a literal `.` followed
by `[a-zA-Z][a-zA-Z0-9_-]*` and returns the (non-overlapping) matches in
first-occurrence order; `extractClassNames` strips the leading dot of each.
We run the equivalent left-to-right automaton: `ExMode.norm` outside any
candidate, `ExMode.dot` right after a `.`, `ExMode.name cur` while the
identifier body `cur` is being consumed. -/

def isClassBodyChar (c : Char) : Bool := c.isAlphanum || c == '_' || c == '-'

inductive ExMode where
  | norm
  | dot
  | name (cur : Str)

def exStep (s : List Str × ExMode) (c : Char) : List Str × ExMode :=
  match s.2 with
  | .norm => if c == '.' then (s.1, .dot) else (s.1, .norm)
  | .dot =>
    if c.isAlpha then (s.1, .name [c])
    else if c == '.' then (s.1, .dot)
    else (s.1, .norm)
  | .name cur =>
    if isClassBodyChar c then (s.1, .name (cur ++ [c]))
    else if c == '.' then (s.1 ++ [cur], .dot)
    else (s.1 ++ [cur], .norm)

def extractClassNames (content : Str) : List Str :=
  match content.foldl exStep ([], .norm) with
  | (acc, .name cur) => acc ++ [cur]
  | (acc, _) => acc

/-! Symbol registry: `CssClassExtractor` (extension.ts lines 35-83).

`cssClassesByFile` is a JS `Map<string, Set<string>>`: an insertion-ordered
mapping with unique keys.  We model it as an association list in insertion
order (oldest first).  A JS `Set` built from an array keeps the first
occurrence of each element in insertion order: `mkSet`. -/

abbrev RegState := List (Str × List Str)

def jsSetAdd (acc : List Str) (x : Str) : List Str :=
  if acc.contains x then acc else acc ++ [x]

def mkSet (l : List Str) : List Str := l.foldl jsSetAdd []

def regKeys (s : RegState) : List Str := s.map (·.1)

def lookupFile (s : RegState) (f : Str) : Option (List Str) :=
  (s.find? (fun e => e.1 == f)).map (·.2)

def deleteFile (s : RegState) (f : Str) : RegState :=
  s.eraseP (fun e => e.1 == f)

/-- Model of `updateCssClassesForFile` (extension.ts lines 46-57).  `readFile` models
`this.fileSystem.readFile`, returning `none` when the read rejects.  The
`try/catch` makes the update total: on failure the state is untouched and
`console.error` is called (the returned `Bool` records that a diagnostic was
emitted); on success the entry is deleted first ("to update ordering in map")
and re-inserted at the most-recent (last) position. -/
def updateCssClassesForFile (readFile : Str → Option Str) (s : RegState) (f : Str) :
    RegState × Bool :=
  match readFile f with
  | some content =>
    let classSet := mkSet (extractClassNames content)
    (deleteFile s f ++ [(f, classSet)], false)
  | none => (s, true)

/-- Model of `removeCssClassesForFile` (extension.ts lines 59-61). -/
def removeCssClassesForFile (s : RegState) (f : Str) : RegState :=
  deleteFile s f

def addClasses (acc : List Str) (classes : List Str) : List Str :=
  classes.foldl jsSetAdd acc

/-- Model of `items` (extension.ts lines 63-78): traverse the file keys in reverse
insertion order (most recently updated first), accumulating each file's
classes into a JS `Set` (first-seen wins), and return the set as an array. -/
def items (s : RegState) : List Str :=
  let files := (regKeys s).reverse
  files.foldl
    (fun acc f =>
      match lookupFile s f with
      | none => acc
      | some classes => addClasses acc classes)
    []

/-! Context detector: `CssClassCompletionProvider.isInContext`
(extension.ts lines 221-301).

### Quote balance: `UP_TO_UNMATCHED_QUOTE_REGEX`
(extension.ts line 7): `/^(?:[^'"]*(?:"[^"]*"|'[^']*'))*[^'"]*(?=['"']|$)/`.
Applied to the line prefix, it matches everything up to (excluding) the first
single or double quote that is not closed later by the same quote character,
or the whole prefix when every quote pairs off; it never fails to match.
Back-ticks are ordinary characters to it.  We run the equivalent one-pass
automaton: `qsStep` carries the committed prefix and, when inside an open
`'...'`/`"..."` span, the open quote with the chars buffered since it; a span
is only committed once its closing quote appears. -/

def isQuoteChar (c : Char) : Bool := c == '\'' || c == '"'

abbrev QState := Str × Option (Char × Str)

def qsStep (s : QState) (c : Char) : QState :=
  match s.2 with
  | none => if isQuoteChar c then (s.1, some (c, [])) else (s.1 ++ [c], none)
  | some (q, buf) =>
    if c == q then (s.1 ++ q :: (buf ++ [q]), none) else (s.1, some (q, buf ++ [c]))

def quoteScan (l : Str) : Str := (l.foldl qsStep ([], none)).1

/-- The text a scan state still owes to the input: nothing, or the open
quote plus the chars buffered since it (used only to state invariants). -/
def stRepr : Option (Char × Str) → Str
  | none => []
  | some (q, buf) => q :: buf

/-! Attribute check: `ENDS_WITH_ATTR_REGEX = /([\w:-]+)=$/`
(extension.ts lines 10, 240-244): the truncated line must end with `=`
preceded by a non-empty run of `[\w:-]` characters; the captured run is the
attribute name. -/

def isAttrChar (c : Char) : Bool := c.isAlphanum || c == '_' || c == ':' || c == '-'

def endsWithAttr (l : Str) : Option Str :=
  match l.reverse with
  | '=' :: rest =>
    let nm := (rest.takeWhile isAttrChar).reverse
    if nm.isEmpty then none else some nm
  | _ => none

/-! Paren tokenizer: `PARENS_REGEX = /([\w$]*\(|\))/g`
(extension.ts lines 13, 263-274): each `(` yields an open token carrying the
maximal run of `[\w$]` characters immediately before it (possibly empty: a
bare grouping paren), each `)` yields a close token, in left-to-right order;
all other characters only interrupt the identifier run. -/

def isWordChar (c : Char) : Bool := c.isAlphanum || c == '_' || c == '$'

inductive PTok where
  | openP (name : Str)
  | closeP

def tokenizeAux : Str → Str → List PTok
  | [], _ => []
  | c :: cs, run =>
    if isWordChar c then tokenizeAux cs (run ++ [c])
    else if c == '(' then .openP run :: tokenizeAux cs []
    else if c == ')' then .closeP :: tokenizeAux cs []
    else tokenizeAux cs []

def tokenize (l : Str) : List PTok := tokenizeAux l []

/-- One step of the two-stack loop (extension.ts lines 260-274): an open
token is pushed (we keep the innermost open at the head, mirroring the array
top `parensStack[parensStack.length - 1]`); a close token pops the stack if
non-empty, otherwise it is recorded on `negativeParensStack` (here a count,
since every recorded element is the same `')'`). -/
def tokStep (acc : List Str × Nat) (t : PTok) : List Str × Nat :=
  match t with
  | .openP nm => (nm :: acc.1, acc.2)
  | .closeP =>
    match acc.1 with
    | [] => (acc.1, acc.2 + 1)
    | _ :: rest => (rest, acc.2)

/-- Reconciling `priorStack` (extension.ts lines 277-283): each carried-over
close pops an open if any remain, otherwise it joins the new carry-over. -/
def applyCarry : Nat → List Str × Nat → List Str × Nat
  | 0, sn => sn
  | k + 1, ([], n) => applyCarry k ([], n + 1)
  | k + 1, (_ :: st, n) => applyCarry k (st, n)

def processLine (line : Str) (carry : Nat) : List Str × Nat :=
  applyCarry carry ((tokenize line).foldl tokStep ([], 0))

def lineAt (doc : List Str) (n : Nat) : Str := doc.getD n []

/-- The lookback loop (extension.ts lines 253-300).  After reconciliation, a
non-empty stack immediately yields the verdict `fns.includes(top)` for the
innermost open (`parensStack[parensStack.length - 1].slice(0, -1)`); an empty
stack continues with the next older line, up to `MAX_LOOKBACK_LINES = 10`
lines in total (`left` counts the remaining older lines: it starts at `9`,
matching `i++` then `i >= MAX_LOOKBACK_LINES`), or until the start of the
document (`lineNum < 0`). -/
def scanFrom (fns : List Str) (doc : List Str) (line : Str) (carry : Nat)
    (curIdx : Nat) (left : Nat) : Bool :=
  let res := processLine line carry
  match res.1 with
  | top :: _ => fns.contains top
  | [] =>
    match left, curIdx with
    | 0, _ => false
    | _ + 1, 0 => false
    | l + 1, c + 1 => scanFrom fns doc (lineAt doc c) res.2 c l

/-- Same loop, returning the innermost open identifier of the first line
whose reconciled stack is non-empty instead of the membership verdict. -/
def firstOpenAux (doc : List Str) (line : Str) (carry : Nat)
    (curIdx : Nat) (left : Nat) : Option Str :=
  let res := processLine line carry
  match res.1 with
  | top :: _ => some top
  | [] =>
    match left, curIdx with
    | 0, _ => none
    | _ + 1, 0 => none
    | l + 1, c + 1 => firstOpenAux doc (lineAt doc c) res.2 c l

/-- The provider options (extension.ts lines 190-198). -/
structure Opts where
  quote : Bool
  attrs : List Str
  fns : List Str

/-- Model of `isInContext` (extension.ts lines 221-301).  The document is the list of
its lines; `posLine`/`posChar` is the zero-based cursor position.  Steps:
truncate the cursor line at the cursor, run the quote balance (the regex
never fails, so the `!beforeOpenQuote` branch is dead), fail when a quote is
required but every quote paired off, otherwise keep the text before the open
quote; then the attribute check (only when `attrs` is non-empty, and only
deciding when the regex matches), then the paren loop (only when `fns` is
non-empty). -/
def isInContext (opts : Opts) (doc : List Str) (posLine posChar : Nat) : Bool :=
  let lineContent := (lineAt doc posLine).take posChar
  let beforeOpenQuote := quoteScan lineContent
  if opts.quote && (beforeOpenQuote.length == lineContent.length) then false
  else
    let lc := beforeOpenQuote
    let attrVerdict : Option Bool :=
      if opts.attrs.isEmpty then none
      else
        match endsWithAttr lc with
        | some nm => some (opts.attrs.contains nm)
        | none => none
    match attrVerdict with
    | some b => b
    | none =>
      if opts.fns.isEmpty then false
      else scanFrom opts.fns doc lc 0 posLine 9

/-! Completion assembler. -/

structure CandidateItem where
  label : Str
  insertText : Str
deriving DecidableEq

def lowerStr (s : Str) : Str := s.map Char.toLower

def ciStartsWith (s pre : Str) : Bool := (lowerStr pre).isPrefixOf (lowerStr s)

/-- Modelled from the spec: the prefix-filtering completion assembler
(spec §4.4, `MixinCompletionProvider.provideCompletionItems`) is present in
the repository only through its tests (`src/extension.test.ts`); the
`extension.ts` snapshot under `src` holds the earlier, non-filtering
provider.  Per the spec: when the detector did not match, return none;
otherwise keep, in `items()` order, the symbols whose text starts with the
typed prefix case-insensitively, each carrying label = symbol text and, when
no replace range is available, insertText = the symbol text with the typed
prefix stripped (with a range, the full text is inserted instead). -/
def assemble (matched : Bool) (typed : Str) (symbols : List Str)
    (hasRange : Bool) : Option (List CandidateItem) :=
  if matched then
    some ((symbols.filter (fun s => ciStartsWith s typed)).map (fun s =>
      { label := s, insertText := if hasRange then s else s.drop typed.length }))
  else none

end CssAc

namespace CssAc

/-! Lemmas on the JS-`Set` fold -/

theorem jsSetAdd_of_mem {acc : List Str} {x : Str} (h : x ∈ acc) :
    jsSetAdd acc x = acc := by
  simp [jsSetAdd, h]

theorem jsSetAdd_of_not_mem {acc : List Str} {x : Str} (h : x ∉ acc) :
    jsSetAdd acc x = acc ++ [x] := by
  simp [jsSetAdd, h]

theorem mem_jsSetAdd {acc : List Str} {x a : Str} :
    a ∈ jsSetAdd acc x ↔ a ∈ acc ∨ a = x := by
  by_cases h : x ∈ acc
  · rw [jsSetAdd_of_mem h]
    exact ⟨Or.inl, fun ha => ha.elim id (fun hax => hax ▸ h)⟩
  · rw [jsSetAdd_of_not_mem h]
    simp

theorem nodup_jsSetAdd {acc : List Str} {x : Str} (h : acc.Nodup) :
    (jsSetAdd acc x).Nodup := by
  by_cases hx : x ∈ acc
  · rw [jsSetAdd_of_mem hx]; exact h
  · rw [jsSetAdd_of_not_mem hx]
    simp [List.nodup_append, h, hx]

theorem mem_addClasses {l acc : List Str} {a : Str} :
    a ∈ addClasses acc l ↔ a ∈ acc ∨ a ∈ l := by
  induction l generalizing acc with
  | nil => simp [addClasses]
  | cons x l ih =>
    show a ∈ addClasses (jsSetAdd acc x) l ↔ _
    rw [ih, mem_jsSetAdd]
    simp [or_assoc, eq_comm]

theorem nodup_addClasses {l acc : List Str} (h : acc.Nodup) :
    (addClasses acc l).Nodup := by
  induction l generalizing acc with
  | nil => exact h
  | cons x l ih => exact ih (nodup_jsSetAdd h)

theorem addClasses_append {l₁ l₂ acc : List Str} :
    addClasses acc (l₁ ++ l₂) = addClasses (addClasses acc l₁) l₂ :=
  List.foldl_append ..

theorem addClasses_of_disjoint {l acc : List Str} (hn : l.Nodup)
    (hd : ∀ x ∈ l, x ∉ acc) : addClasses acc l = acc ++ l := by
  induction l generalizing acc with
  | nil => simp [addClasses]
  | cons x l ih =>
    show addClasses (jsSetAdd acc x) l = _
    rw [jsSetAdd_of_not_mem (hd x (by simp)), ih hn.of_cons]
    · simp
    · intro y hy
      simp only [List.mem_append, List.mem_singleton]
      rintro (hya | rfl)
      · exact hd y (by simp [hy]) hya
      · exact (List.nodup_cons.mp hn).1 hy

theorem mkSet_nodup {l : List Str} : (mkSet l).Nodup :=
  nodup_addClasses List.nodup_nil

theorem mem_mkSet {l : List Str} {a : Str} : a ∈ mkSet l ↔ a ∈ l := by
  rw [mkSet]
  show a ∈ addClasses [] l ↔ _
  rw [mem_addClasses]
  simp

theorem filter_addClasses {l acc : List Str} (p : Str → Bool) :
    (addClasses acc l).filter p = addClasses (acc.filter p) (l.filter p) := by
  induction l generalizing acc with
  | nil => simp [addClasses]
  | cons x l ih =>
    show (addClasses (jsSetAdd acc x) l).filter p = _
    by_cases px : p x = true
    · by_cases hx : x ∈ acc
      · rw [jsSetAdd_of_mem hx, ih]
        have : jsSetAdd (acc.filter p) x = acc.filter p :=
          jsSetAdd_of_mem (List.mem_filter.mpr ⟨hx, px⟩)
        simp [px, this, addClasses]
      · rw [jsSetAdd_of_not_mem hx, ih]
        have : jsSetAdd (acc.filter p) x = acc.filter p ++ [x] :=
          jsSetAdd_of_not_mem (fun hc => hx (List.mem_filter.mp hc).1)
        simp [px, this, addClasses, List.filter_append]
    · have hfx : ∀ m : List Str, (jsSetAdd m x).filter p = m.filter p := by
        intro m
        by_cases hx : x ∈ m
        · rw [jsSetAdd_of_mem hx]
        · rw [jsSetAdd_of_not_mem hx]
          simp [List.filter_append, px]
      rw [ih, hfx]
      simp [px]

theorem foldl_addClasses_flatten {ls : List (List Str)} {acc : List Str} :
    ls.foldl addClasses acc = addClasses acc ls.flatten := by
  induction ls generalizing acc with
  | nil => simp [addClasses]
  | cons x ls ih =>
    show ls.foldl addClasses (addClasses acc x) = _
    rw [ih, List.flatten_cons, addClasses_append]

/-! Lemmas on the registry -/

theorem regKeys_cons {e : Str × List Str} {s : RegState} :
    regKeys (e :: s) = e.1 :: regKeys s := rfl

theorem mem_regKeys {s : RegState} {e : Str × List Str} (he : e ∈ s) :
    e.1 ∈ regKeys s :=
  List.mem_map_of_mem (·.1) he

theorem find?_key_of_nodup {s : RegState} {e : Str × List Str}
    (hk : (regKeys s).Nodup) (he : e ∈ s) :
    s.find? (fun x => x.1 == e.1) = some e := by
  induction s with
  | nil => cases he
  | cons a s ih =>
    rcases List.mem_cons.mp he with rfl | hes
    · simp [List.find?_cons]
    · have hne : (a.1 == e.1) = false := by
        rw [beq_eq_false_iff_ne]
        intro hae
        refine (List.nodup_cons.mp hk).1 ?_
        show a.1 ∈ regKeys s
        rw [hae]
        exact mem_regKeys hes
      rw [List.find?_cons, hne]
      exact ih (List.nodup_cons.mp hk).2 hes

theorem lookupFile_eq_of_mem {s : RegState} {e : Str × List Str}
    (hk : (regKeys s).Nodup) (he : e ∈ s) : lookupFile s e.1 = some e.2 := by
  rw [lookupFile, find?_key_of_nodup hk he]
  rfl

theorem items_foldl_general (s : RegState) (t : RegState) (acc : List Str)
    (h : ∀ e ∈ t, lookupFile s e.1 = some e.2) :
    (t.map (·.1)).foldl
      (fun acc f =>
        match lookupFile s f with
        | none => acc
        | some classes => addClasses acc classes) acc
      = (t.map (·.2)).foldl addClasses acc := by
  induction t generalizing acc with
  | nil => rfl
  | cons e t ih =>
    simp only [List.map_cons, List.foldl_cons, h e (List.mem_cons_self e t)]
    exact ih _ (fun x hx => h x (List.mem_cons_of_mem _ hx))

theorem items_eq_flat {s : RegState} (hk : (regKeys s).Nodup) :
    items s = addClasses [] ((s.reverse.map (·.2)).flatten) := by
  rw [items]
  have h1 : (regKeys s).reverse = s.reverse.map (·.1) := (List.map_reverse ..).symm
  rw [h1,
    items_foldl_general s s.reverse []
      (fun e he => lookupFile_eq_of_mem hk (List.mem_reverse.mp he)),
    foldl_addClasses_flatten]

theorem items_nodup (s : RegState) : (items s).Nodup := by
  rw [items]
  have aux : ∀ (files : List Str) (acc : List Str), acc.Nodup →
      (files.foldl
        (fun acc f =>
          match lookupFile s f with
          | none => acc
          | some classes => addClasses acc classes) acc).Nodup := by
    intro files
    induction files with
    | nil => exact fun _ h => h
    | cons f files ih =>
      intro acc hacc
      simp only [List.foldl_cons]
      cases lookupFile s f with
      | none => exact ih _ hacc
      | some classes => exact ih _ (nodup_addClasses hacc)
  exact aux _ [] List.nodup_nil

theorem mem_items {s : RegState} {a : Str} (hk : (regKeys s).Nodup) :
    a ∈ items s ↔ ∃ e ∈ s, a ∈ e.2 := by
  rw [items_eq_flat hk, mem_addClasses]
  simp only [List.not_mem_nil, false_or, List.mem_flatten, List.mem_map,
    List.mem_reverse]
  constructor
  · rintro ⟨l, ⟨e, hes, rfl⟩, hal⟩
    exact ⟨e, hes, hal⟩
  · rintro ⟨e, hes, hae⟩
    exact ⟨e.2, ⟨e, hes, rfl⟩, hae⟩

theorem deleteFile_of_not_mem {s : RegState} {f : Str} (h : f ∉ regKeys s) :
    deleteFile s f = s := by
  apply List.eraseP_of_forall_not
  intro e he hbe
  exact h (beq_iff_eq.mp hbe ▸ List.mem_map_of_mem (·.1) he)

theorem not_mem_keys_deleteFile {s : RegState} {f : Str}
    (hk : (regKeys s).Nodup) : f ∉ regKeys (deleteFile s f) := by
  induction s with
  | nil => simp [deleteFile, regKeys]
  | cons a s ih =>
    rw [deleteFile, List.eraseP_cons]
    cases hpa : (a.1 == f) with
    | true =>
      simp only [cond_true]
      rw [← beq_iff_eq.mp hpa]
      exact (List.nodup_cons.mp hk).1
    | false =>
      simp only [cond_false, regKeys_cons]
      intro hmem
      rcases List.mem_cons.mp hmem with hfa | hfs
      · exact absurd (beq_iff_eq.mpr hfa.symm) (by simp [hpa])
      · exact ih (List.nodup_cons.mp hk).2 hfs

theorem deleteFile_eq_filter {s : RegState} {f : Str}
    (hk : (regKeys s).Nodup) :
    deleteFile s f = s.filter (fun e => !(e.1 == f)) := by
  induction s with
  | nil => rfl
  | cons a s ih =>
    have htail := List.nodup_cons.mp hk
    rw [deleteFile, List.eraseP_cons, List.filter_cons]
    cases hpa : (a.1 == f) with
    | true =>
      simp only [hpa, cond_true, Bool.not_true, Bool.false_eq_true, if_false]
      refine (List.filter_eq_self.mpr ?_).symm
      intro e he
      suffices h : ¬ e.1 = f by simp [h]
      intro hef
      refine htail.1 ?_
      show a.1 ∈ regKeys s
      rw [beq_iff_eq.mp hpa, ← hef]
      exact mem_regKeys he
    | false =>
      simp only [hpa, cond_false, Bool.not_false, if_true]
      rw [← deleteFile, ih htail.2]

theorem find?_deleteFile_ne {s : RegState} {f g : Str} (hgf : ¬ g = f) :
    (deleteFile s f).find? (fun e => e.1 == g) = s.find? (fun e => e.1 == g) := by
  induction s with
  | nil => rfl
  | cons a s ih =>
    rw [deleteFile, List.eraseP_cons]
    cases hpa : (a.1 == f) with
    | true =>
      simp only [cond_true]
      have hag : (a.1 == g) = false := by
        rw [beq_eq_false_iff_ne, beq_iff_eq.mp hpa]
        exact fun h => hgf h.symm
      rw [List.find?_cons, hag]
    | false =>
      simp only [cond_false]
      rw [List.find?_cons, List.find?_cons]
      cases hag : (a.1 == g) with
      | true => rfl
      | false => exact ih

theorem lookupFile_set_self {s : RegState} {f : Str} {X : List Str}
    (hk : (regKeys s).Nodup) :
    lookupFile (deleteFile s f ++ [(f, X)]) f = some X := by
  rw [lookupFile, List.find?_append]
  have hnone : (deleteFile s f).find? (fun e => e.1 == f) = none := by
    rw [List.find?_eq_none]
    intro e he hbe
    have hmem : e.1 ∈ regKeys (deleteFile s f) := mem_regKeys he
    rw [beq_iff_eq.mp hbe] at hmem
    exact not_mem_keys_deleteFile hk hmem
  rw [hnone, Option.none_or]
  simp [List.find?_cons]

theorem lookupFile_set_other {s : RegState} {f g : Str} {X : List Str}
    (hgf : ¬ g = f) :
    lookupFile (deleteFile s f ++ [(f, X)]) g = lookupFile s g := by
  rw [lookupFile, lookupFile, List.find?_append, find?_deleteFile_ne hgf]
  have hfg : ((f, X).1 == g) = false := by
    rw [beq_eq_false_iff_ne]
    exact fun h => hgf h.symm
  rw [List.find?_cons, hfg]
  simp

theorem regKeys_filter_nodup {s : RegState} (q : Str × List Str → Bool)
    (hk : (regKeys s).Nodup) : (regKeys (s.filter q)).Nodup := by
  have hsub : List.Sublist ((s.filter q).map (·.1)) (s.map (·.1)) :=
    List.Sublist.map (·.1) (List.filter_sublist s)
  exact List.Sublist.nodup hsub hk

theorem update_success_eq {rd : Str → Option Str} {s : RegState} {f c : Str}
    (hrd : rd f = some c) :
    (updateCssClassesForFile rd s f).1
      = deleteFile s f ++ [(f, mkSet (extractClassNames c))] := by
  rw [updateCssClassesForFile, hrd]

theorem mem_items_deleteFile {s : RegState} {f : Str} {a : Str}
    (hk : (regKeys s).Nodup) :
    a ∈ items (deleteFile s f) ↔ ∃ e ∈ s, ¬ e.1 = f ∧ a ∈ e.2 := by
  rw [deleteFile_eq_filter hk,
    mem_items (regKeys_filter_nodup (fun e => !(e.1 == f)) hk)]
  constructor
  · rintro ⟨e, hef, hae⟩
    have := List.mem_filter.mp hef
    refine ⟨e, this.1, ?_, hae⟩
    simpa using this.2
  · rintro ⟨e, hes, hne, hae⟩
    exact ⟨e, List.mem_filter.mpr ⟨hes, by simpa using hne⟩, hae⟩

/-! Lemmas on the extractor -/

theorem extract_state_head_alpha :
    ∀ (l : Str) (acc : List Str) (m : ExMode),
      (∀ x ∈ acc, ∃ c cs, x = c :: cs ∧ c.isAlpha = true) →
      (∀ cur, m = ExMode.name cur → ∃ c cs, cur = c :: cs ∧ c.isAlpha = true) →
      (∀ x ∈ (l.foldl exStep (acc, m)).1, ∃ c cs, x = c :: cs ∧ c.isAlpha = true)
      ∧ (∀ cur, (l.foldl exStep (acc, m)).2 = ExMode.name cur →
          ∃ c cs, cur = c :: cs ∧ c.isAlpha = true) := by
  intro l
  induction l with
  | nil => exact fun acc m hacc hm => ⟨hacc, hm⟩
  | cons ch l ih =>
    intro acc m hacc hm
    rw [List.foldl_cons]
    cases m with
    | norm =>
      by_cases hch : (ch == '.') = true
      · rw [show exStep (acc, ExMode.norm) ch = (acc, ExMode.dot) by
          simp [exStep, hch]]
        exact ih acc _ hacc (fun cur h => by cases h)
      · rw [show exStep (acc, ExMode.norm) ch = (acc, ExMode.norm) by
          simp [exStep, hch]]
        exact ih acc _ hacc hm
    | dot =>
      by_cases ha : ch.isAlpha = true
      · rw [show exStep (acc, ExMode.dot) ch = (acc, ExMode.name [ch]) by
          simp [exStep, ha]]
        refine ih acc _ hacc ?_
        intro cur h
        cases h
        exact ⟨ch, [], rfl, ha⟩
      · by_cases hch : (ch == '.') = true
        · rw [show exStep (acc, ExMode.dot) ch = (acc, ExMode.dot) by
            simp [exStep, ha, hch]]
          exact ih acc _ hacc (fun cur h => by cases h)
        · rw [show exStep (acc, ExMode.dot) ch = (acc, ExMode.norm) by
            simp [exStep, ha, hch]]
          exact ih acc _ hacc (fun cur h => by cases h)
    | name cur =>
      have hcur := hm cur rfl
      by_cases hb : isClassBodyChar ch = true
      · rw [show exStep (acc, ExMode.name cur) ch = (acc, ExMode.name (cur ++ [ch])) by
          simp [exStep, hb]]
        refine ih acc _ hacc ?_
        intro cur' h
        cases h
        obtain ⟨c, cs, rfl, hc⟩ := hcur
        exact ⟨c, cs ++ [ch], rfl, hc⟩
      · have hacc' : ∀ x ∈ acc ++ [cur], ∃ c cs, x = c :: cs ∧ c.isAlpha = true := by
          intro x hx
          rcases List.mem_append.mp hx with hxa | hxc
          · exact hacc x hxa
          · rw [List.mem_singleton.mp hxc]
            exact hcur
        by_cases hch : (ch == '.') = true
        · rw [show exStep (acc, ExMode.name cur) ch = (acc ++ [cur], ExMode.dot) by
            simp [exStep, hb, hch]]
          exact ih _ _ hacc' (fun cur' h => by cases h)
        · rw [show exStep (acc, ExMode.name cur) ch = (acc ++ [cur], ExMode.norm) by
            simp [exStep, hb, hch]]
          exact ih _ _ hacc' (fun cur' h => by cases h)

theorem extract_head_alpha {content x : Str}
    (hx : x ∈ extractClassNames content) :
    ∃ c cs, x = c :: cs ∧ c.isAlpha = true := by
  have h := extract_state_head_alpha content [] ExMode.norm (by simp)
    (fun cur hc => by cases hc)
  rw [extractClassNames] at hx
  rcases hfold : content.foldl exStep ([], ExMode.norm) with ⟨a, m⟩
  rw [hfold] at hx h
  cases m with
  | name cur =>
    rcases List.mem_append.mp hx with hxa | hxc
    · exact h.1 x hxa
    · rw [List.mem_singleton.mp hxc]
      exact h.2 cur rfl
  | norm => exact h.1 x hx
  | dot => exact h.1 x hx

/-! Claims about the extractor and the registry -/

/-- Claim C8: the extractor is a total function on strings (the Lean model is
total by construction, mirroring that `content.match(CLASS_REGEX) || []`
never throws): empty input and input without matches — including a
sigil-plus-digit token like `.2invalid` or `@define-mixin 2invalid` — yield
`[]`; the spec's sample stylesheet yields exactly
`["header", "content", "footer", "link"]` in first-occurrence order; and
every returned identifier starts with a letter. -/
theorem C8_extractor_total :
    extractClassNames "".data = []
    ∧ extractClassNames "body \x7b margin: 0; \x7d".data = []
    ∧ extractClassNames ".2invalid".data = []
    ∧ extractClassNames "@define-mixin 2invalid".data = []
    ∧ extractClassNames ".header \x7b color: red; \x7d main.content \x7b padding: 20px; \x7d .footer \x7b .link \x7b text-decoration: none; \x7d \x7d".data
        = ["header".data, "content".data, "footer".data, "link".data]
    ∧ (∀ (content x : Str), x ∈ extractClassNames content →
        ∃ c cs, x = c :: cs ∧ c.isAlpha = true) :=
  ⟨by decide, by decide, by decide, by decide, by decide,
    fun _ _ hx => extract_head_alpha hx⟩

/-- Witness for C8: the letter-start clause evaluated on the sample. -/
theorem C8_witness :
    "header".data ∈ extractClassNames ".header \x7b color: red; \x7d".data
    ∧ ∃ c cs, "header".data = c :: cs ∧ c.isAlpha = true :=
  ⟨by decide,
    C8_extractor_total.2.2.2.2.2 ".header \x7b color: red; \x7d".data
      "header".data (by decide)⟩

/-- Claim C5: when the file read fails (`readFile` rejects, modelled by
`none`), `updateCssClassesForFile` leaves the registry state exactly as it
was — the file's entry, its recency position and every other file's entry
are unchanged — and reports the failure on the diagnostic channel (the
`console.error` in the `catch`, modelled by the `true` flag) without
propagating an exception (the model is a total function). -/
theorem C5_update_read_fail (rd : Str → Option Str) (s : RegState) (f : Str)
    (h : rd f = none) :
    updateCssClassesForFile rd s f = (s, true)
    ∧ items (updateCssClassesForFile rd s f).1 = items s
    ∧ (∀ g, lookupFile (updateCssClassesForFile rd s f).1 g = lookupFile s g)
    ∧ regKeys (updateCssClassesForFile rd s f).1 = regKeys s := by
  have h1 : updateCssClassesForFile rd s f = (s, true) := by
    rw [updateCssClassesForFile, h]
  exact ⟨h1, by rw [h1], fun g => by rw [h1], by rw [h1]⟩

/-- Witness for C5 at a concrete registry and a failing read. -/
theorem C5_witness :
    updateCssClassesForFile (fun _ => none) [("f".data, ["a".data])] "g".data
      = ([("f".data, ["a".data])], true) :=
  (C5_update_read_fail (fun _ => none) [("f".data, ["a".data])] "g".data rfl).1

/-- Claim C6: a successful update of a file wholly replaces its entry (the new
symbol set is `mkSet (extractClassNames c)` regardless of the old entry, and
no merging happens), leaves every other file's entry unchanged, moves the
file to the most-recent (last) position even when its symbol set is
unchanged, and is idempotent: a second update with the same content yields
the very same state, hence the same `items()`. -/
theorem C6_update_replaces (rd : Str → Option Str) (s : RegState) (f c : Str)
    (hk : (regKeys s).Nodup) (hrd : rd f = some c) :
    lookupFile (updateCssClassesForFile rd s f).1 f
      = some (mkSet (extractClassNames c))
    ∧ (updateCssClassesForFile rd s f).1.getLast?
      = some (f, mkSet (extractClassNames c))
    ∧ (∀ g, ¬ g = f →
        lookupFile (updateCssClassesForFile rd s f).1 g = lookupFile s g)
    ∧ (updateCssClassesForFile rd (updateCssClassesForFile rd s f).1 f).1
      = (updateCssClassesForFile rd s f).1
    ∧ items (updateCssClassesForFile rd (updateCssClassesForFile rd s f).1 f).1
      = items (updateCssClassesForFile rd s f).1 := by
  have hu := update_success_eq (s := s) hrd
  have hidem :
      (updateCssClassesForFile rd (updateCssClassesForFile rd s f).1 f).1
        = (updateCssClassesForFile rd s f).1 := by
    rw [update_success_eq hrd, hu]
    have hnm : ∀ e ∈ deleteFile s f, ¬ ((fun e => e.1 == f) e = true) := by
      intro e he hbe
      have hmem : e.1 ∈ regKeys (deleteFile s f) := mem_regKeys he
      rw [beq_iff_eq.mp hbe] at hmem
      exact not_mem_keys_deleteFile hk hmem
    rw [deleteFile, List.eraseP_append_right _ hnm]
    rw [show List.eraseP (fun e => e.1 == f) [(f, mkSet (extractClassNames c))]
        = [] by simp [List.eraseP_cons]]
    rw [List.append_nil]
  refine ⟨?_, ?_, ?_, hidem, by rw [hidem]⟩
  · rw [hu]
    exact lookupFile_set_self hk
  · rw [hu]
    exact List.getLast?_concat _
  · intro g hg
    rw [hu]
    exact lookupFile_set_other hg

/-- Witness for C6 at a concrete registry, file and content. -/
theorem C6_witness :
    (regKeys [("g".data, ["b".data])]).Nodup
    ∧ (fun _ : Str => some ".a".data) "f".data = some ".a".data
    ∧ lookupFile
        (updateCssClassesForFile (fun _ => some ".a".data)
          [("g".data, ["b".data])] "f".data).1 "f".data
      = some (mkSet (extractClassNames ".a".data)) :=
  ⟨by decide, rfl,
    (C6_update_replaces (fun _ => some ".a".data) [("g".data, ["b".data])]
      "f".data ".a".data (by decide) rfl).1⟩

/-- Claim C3: `items()` is the most-recent-first, first-seen-wins merge: it is
duplicate-free for every state; for states with unique keys (the only ones a
JS `Map` can hold) its members are exactly the symbols of the stored entries
and it equals the first-seen dedup of the reversed (most recent first)
concatenation of the per-file sets; and updating two distinct files with
disjoint extracted symbol sets from the empty registry lists all of the
second file's symbols before any of the first file's. -/
theorem C3_items_recency :
    (∀ s : RegState, (items s).Nodup)
    ∧ (∀ s : RegState, (regKeys s).Nodup →
        ∀ a, a ∈ items s ↔ ∃ e ∈ s, a ∈ e.2)
    ∧ (∀ s : RegState, (regKeys s).Nodup →
        items s = addClasses [] ((s.reverse.map (·.2)).flatten))
    ∧ (∀ (rd : Str → Option Str) (f₁ f₂ c₁ c₂ : Str),
        ¬ f₁ = f₂ → rd f₁ = some c₁ → rd f₂ = some c₂ →
        (∀ a ∈ extractClassNames c₁, a ∉ extractClassNames c₂) →
        items (updateCssClassesForFile rd
            (updateCssClassesForFile rd [] f₁).1 f₂).1
          = mkSet (extractClassNames c₂) ++ mkSet (extractClassNames c₁)) := by
  refine ⟨items_nodup, fun s hk a => mem_items hk, fun s hk => items_eq_flat hk, ?_⟩
  intro rd f₁ f₂ c₁ c₂ hne h₁ h₂ hdisj
  have hs₁ : (updateCssClassesForFile rd [] f₁).1
      = [(f₁, mkSet (extractClassNames c₁))] := by
    rw [update_success_eq h₁]
    rfl
  have hs₂ : (updateCssClassesForFile rd
      (updateCssClassesForFile rd [] f₁).1 f₂).1
      = [(f₁, mkSet (extractClassNames c₁)), (f₂, mkSet (extractClassNames c₂))] := by
    rw [update_success_eq h₂, hs₁, deleteFile, List.eraseP_cons]
    have : (f₁ == f₂) = false := beq_eq_false_iff_ne.mpr hne
    simp [this]
  rw [hs₂, items_eq_flat]
  · have hX₂ : addClasses [] (mkSet (extractClassNames c₂))
        = mkSet (extractClassNames c₂) := by
      rw [addClasses_of_disjoint mkSet_nodup (by simp)]
      rfl
    have hdisj' : ∀ x ∈ mkSet (extractClassNames c₁),
        x ∉ mkSet (extractClassNames c₂) := by
      intro x hx hx₂
      exact hdisj x (mem_mkSet.mp hx) (mem_mkSet.mp hx₂)
    simp only [List.reverse_cons, List.reverse_nil, List.nil_append,
      List.map_append, List.map_cons, List.map_nil, List.flatten_append,
      List.flatten_cons, List.flatten_nil, List.append_nil]
    rw [addClasses_append, hX₂, addClasses_of_disjoint mkSet_nodup hdisj']
  · simp [regKeys, hne]

/-- Witness for C3 with two concrete files holding disjoint class sets. -/
theorem C3_witness :
    items (updateCssClassesForFile
        (fun f => if f == "f1".data then some ".a".data else some ".b".data)
        (updateCssClassesForFile
          (fun f => if f == "f1".data then some ".a".data else some ".b".data)
          [] "f1".data).1 "f2".data).1
      = mkSet (extractClassNames ".b".data) ++ mkSet (extractClassNames ".a".data) :=
  C3_items_recency.2.2.2
    (fun f => if f == "f1".data then some ".a".data else some ".b".data)
    "f1".data "f2".data ".a".data ".b".data (by decide) (by decide) (by decide)
    (by decide)

/-- Claim C9, counterexample: the claim says removing a file leaves the
relative order of the remaining files' symbols in `items()` unchanged.  In
the registry built by updating `f1` (class `a`), then `f2` (class `b`), then
`f3` (classes `a`, `c`), `items()` is `[a, c, b]` — `a` and `b` both belong
to remaining files and `a` precedes `b`.  After `remove f3`, `items()` is
`[b, a]`: `a` survives (it is shared with `f1`) but has moved behind `b`, so
the claimed order preservation fails. -/
theorem C9_counterexample :
    (updateCssClassesForFile
        (fun f => if f == "f1".data then some ".a".data
          else if f == "f2".data then some ".b".data else some ".a.c".data)
        (updateCssClassesForFile
          (fun f => if f == "f1".data then some ".a".data
            else if f == "f2".data then some ".b".data else some ".a.c".data)
          (updateCssClassesForFile
            (fun f => if f == "f1".data then some ".a".data
              else if f == "f2".data then some ".b".data else some ".a.c".data)
            [] "f1".data).1 "f2".data).1 "f3".data).1
      = [("f1".data, ["a".data]), ("f2".data, ["b".data]),
         ("f3".data, ["a".data, "c".data])]
    ∧ items [("f1".data, ["a".data]), ("f2".data, ["b".data]),
        ("f3".data, ["a".data, "c".data])]
      = ["a".data, "c".data, "b".data]
    ∧ items (removeCssClassesForFile
        [("f1".data, ["a".data]), ("f2".data, ["b".data]),
         ("f3".data, ["a".data, "c".data])] "f3".data)
      = ["b".data, "a".data]
    ∧ List.Sublist ["a".data, "b".data]
        (items [("f1".data, ["a".data]), ("f2".data, ["b".data]),
          ("f3".data, ["a".data, "c".data])])
    ∧ ¬ List.Sublist ["a".data, "b".data]
        (items (removeCssClassesForFile
          [("f1".data, ["a".data]), ("f2".data, ["b".data]),
           ("f3".data, ["a".data, "c".data])] "f3".data)) := by
  refine ⟨by decide, by decide, by decide, by decide, by decide⟩

/-- Claim C9, amended: `remove(fileId)` deletes the file's entry when present
and is a silent no-op when absent; after removal, `items()` holds exactly
the symbols of the other files (so exactly the symbols defined by no other
file disappear); and the relative order of the symbols outside the removed
file's set is unchanged — a symbol the removed file shared with an older
file survives, but may move to the position its older definition gives it. -/
theorem C9_remove (s : RegState) (f : Str) (hk : (regKeys s).Nodup) :
    (f ∉ regKeys s → removeCssClassesForFile s f = s)
    ∧ (∀ a, a ∈ items (removeCssClassesForFile s f)
        ↔ ∃ e ∈ s, ¬ e.1 = f ∧ a ∈ e.2)
    ∧ ((items (removeCssClassesForFile s f)).filter
          (fun a => !(((lookupFile s f).getD []).contains a))
        = (items s).filter
          (fun a => !(((lookupFile s f).getD []).contains a))) := by
  refine ⟨deleteFile_of_not_mem, fun a => mem_items_deleteFile hk, ?_⟩
  by_cases hf : f ∈ regKeys s
  · obtain ⟨e, hes, hef⟩ : ∃ e, e ∈ s ∧ e.1 = f := List.mem_map.mp hf
    subst hef
    obtain ⟨s₁, s₂, rfl⟩ := List.mem_iff_append.mp hes
    have hkeys : regKeys (s₁ ++ e :: s₂) = regKeys s₁ ++ e.1 :: regKeys s₂ := by
      simp [regKeys]
    have hnd := List.nodup_append.mp (hkeys ▸ hk)
    have hk1 : ∀ x ∈ s₁, ¬ x.1 = e.1 := by
      intro x hx hxe
      exact hnd.2.2 (hxe ▸ mem_regKeys hx) (List.mem_cons_self _ _)
    have hlook : lookupFile (s₁ ++ e :: s₂) e.1 = some e.2 :=
      lookupFile_eq_of_mem hk hes
    have hdel : deleteFile (s₁ ++ e :: s₂) e.1 = s₁ ++ s₂ := by
      rw [deleteFile,
        List.eraseP_append_right _
          (fun b hb hbe => (hk1 b hb) (beq_iff_eq.mp hbe))]
      rw [List.eraseP_cons]
      simp
    have hk' : (regKeys (s₁ ++ s₂)).Nodup := by
      have hsub : List.Sublist (regKeys (s₁ ++ s₂)) (regKeys (s₁ ++ e :: s₂)) := by
        simp only [regKeys, List.map_append, List.map_cons]
        exact List.Sublist.append (List.Sublist.refl _)
          (List.sublist_cons_self _ _)
      exact List.Sublist.nodup hsub hk
    rw [removeCssClassesForFile, hdel, items_eq_flat hk', items_eq_flat hk,
      hlook]
    rw [filter_addClasses, filter_addClasses]
    have hfe : List.filter (fun a => !decide (a ∈ e.2)) e.2 = [] := by
      rw [List.filter_eq_nil_iff]
      intro a ha
      simp [ha]
    simp [List.reverse_append, List.reverse_cons, List.map_append,
      List.flatten_append, List.filter_append, hfe]
  · have h0 : lookupFile s f = none := by
      rw [lookupFile, List.find?_eq_none.mpr]
      · rfl
      · intro e he hbe
        exact hf (beq_iff_eq.mp hbe ▸ mem_regKeys he)
    rw [removeCssClassesForFile, deleteFile_of_not_mem hf]

/-- Witness for C9's amended statement at a concrete registry. -/
theorem C9_witness :
    (regKeys [("f1".data, ["a".data]), ("f3".data, ["a".data, "c".data])]).Nodup
    ∧ ((items (removeCssClassesForFile
          [("f1".data, ["a".data]), ("f3".data, ["a".data, "c".data])]
          "f3".data)).filter
        (fun a => !(((lookupFile
            [("f1".data, ["a".data]), ("f3".data, ["a".data, "c".data])]
            "f3".data).getD []).contains a))
      = (items [("f1".data, ["a".data]), ("f3".data, ["a".data, "c".data])]).filter
        (fun a => !(((lookupFile
            [("f1".data, ["a".data]), ("f3".data, ["a".data, "c".data])]
            "f3".data).getD []).contains a))) :=
  ⟨by decide,
    (C9_remove [("f1".data, ["a".data]), ("f3".data, ["a".data, "c".data])]
      "f3".data (by decide)).2.2⟩

/-! Lemmas on the quote-balance scan -/

theorem isQuoteChar_cases {c : Char} (h : isQuoteChar c = true) :
    c = '\'' ∨ c = '"' := by
  simpa [isQuoteChar] using h

theorem qsStep_shift (c : Char) (com : Str) (st : Option (Char × Str)) :
    qsStep (com, st) c
      = (com ++ (qsStep ([], st) c).1, (qsStep ([], st) c).2) := by
  rcases st with _ | ⟨q, buf⟩
  · by_cases h : isQuoteChar c = true <;> simp [qsStep, h]
  · by_cases h : (c == q) = true <;> simp [qsStep, h]

theorem foldl_qsStep_shift :
    ∀ (l : Str) (com : Str) (st : Option (Char × Str)),
      l.foldl qsStep (com, st)
        = (com ++ (l.foldl qsStep ([], st)).1, (l.foldl qsStep ([], st)).2) := by
  intro l
  induction l with
  | nil => intro com st; simp
  | cons c l ih =>
    intro com st
    rw [List.foldl_cons, List.foldl_cons, qsStep_shift]
    rcases hstep : qsStep ([], st) c with ⟨com₁, st₁⟩
    rw [ih (com ++ com₁) st₁, ih com₁ st₁]
    simp

theorem qs_total :
    ∀ (l : Str) (com : Str) (st : Option (Char × Str)),
      (l.foldl qsStep (com, st)).1 ++ stRepr (l.foldl qsStep (com, st)).2
        = com ++ stRepr st ++ l := by
  intro l
  induction l with
  | nil => intro com st; simp
  | cons c l ih =>
    intro com st
    rw [List.foldl_cons]
    rcases st with _ | ⟨q, buf⟩
    · by_cases h : isQuoteChar c = true
      · rw [show qsStep (com, none) c = (com, some (c, [])) by simp [qsStep, h]]
        rw [ih]
        simp [stRepr]
      · rw [show qsStep (com, none) c = (com ++ [c], none) by simp [qsStep, h]]
        rw [ih]
        simp [stRepr]
    · by_cases h : (c == q) = true
      · rw [show qsStep (com, some (q, buf)) c
            = (com ++ q :: (buf ++ [q]), none) by simp [qsStep, h]]
        rw [ih, beq_iff_eq.mp h]
        simp [stRepr]
      · rw [show qsStep (com, some (q, buf)) c
            = (com, some (q, buf ++ [c])) by simp [qsStep, h]]
        rw [ih]
        simp [stRepr]

theorem balanced_fold {s : Str} (hs : quoteScan s = s) :
    s.foldl qsStep ([], none) = (s, none) := by
  have htot := qs_total s [] none
  rw [quoteScan] at hs
  rcases hp : s.foldl qsStep ([], none) with ⟨com, st⟩
  rw [hp] at hs htot
  simp only at hs
  subst hs
  rcases st with _ | ⟨q, buf⟩
  · rfl
  · exfalso
    simp [stRepr] at htot

theorem quoteScan_balanced_iff (s : Str) :
    quoteScan s = s ↔ (s.foldl qsStep ([], none)).2 = none := by
  constructor
  · intro hs
    rw [balanced_fold hs]
  · intro hst
    have htot := qs_total s [] none
    rw [hst] at htot
    simp [stRepr] at htot
    rw [quoteScan, htot]

theorem foldl_qsStep_nonquote :
    ∀ (t : Str) (com : Str), (∀ c ∈ t, isQuoteChar c = false) →
      t.foldl qsStep (com, none) = (com ++ t, none) := by
  intro t
  induction t with
  | nil => intro com _; simp
  | cons c t ih =>
    intro com h
    rw [List.foldl_cons,
      show qsStep (com, none) c = (com ++ [c], none) by
        simp [qsStep, h c (List.mem_cons_self c t)]]
    rw [ih _ (fun x hx => h x (List.mem_cons_of_mem _ hx))]
    simp

theorem foldl_qsStep_buffer {q : Char} (hq : isQuoteChar q = true) :
    ∀ (t : Str) (com buf : Str), (∀ c ∈ t, isQuoteChar c = false) →
      t.foldl qsStep (com, some (q, buf)) = (com, some (q, buf ++ t)) := by
  intro t
  induction t with
  | nil => intro com buf _; simp
  | cons c t ih =>
    intro com buf h
    have hcq : (c == q) = false := by
      rw [beq_eq_false_iff_ne]
      intro hceq
      have hmem := h c (List.mem_cons_self c t)
      rw [hceq, hq] at hmem
      simp at hmem
    rw [List.foldl_cons,
      show qsStep (com, some (q, buf)) c = (com, some (q, buf ++ [c])) by
        simp [qsStep, hcq]]
    rw [ih _ _ (fun x hx => h x (List.mem_cons_of_mem _ hx))]
    simp

theorem quoteScan_append_nonquote {s t : Str} (hs : quoteScan s = s)
    (ht : ∀ c ∈ t, isQuoteChar c = false) : quoteScan (s ++ t) = s ++ t := by
  rw [quoteScan, List.foldl_append, balanced_fold hs,
    foldl_qsStep_nonquote t s ht]

theorem quoteScan_open_quote {s t : Str} {q : Char} (hs : quoteScan s = s)
    (hq : isQuoteChar q = true) (ht : ∀ c ∈ t, isQuoteChar c = false) :
    quoteScan (s ++ q :: t) = s := by
  rw [quoteScan, List.foldl_append, balanced_fold hs, List.foldl_cons,
    show qsStep (s, none) q = (s, some (q, [])) by simp [qsStep, hq],
    foldl_qsStep_buffer hq t s [] ht]

theorem foldl_qsStep_filter (p : Char → Bool)
    (hp : ∀ c, isQuoteChar c = true → p c = true) :
    ∀ (l : Str) (com : Str) (st : Option (Char × Str)),
      (∀ q b, st = some (q, b) → isQuoteChar q = true) →
      (l.filter p).foldl qsStep
          (com.filter p, st.map (fun qb => (qb.1, qb.2.filter p)))
        = ((l.foldl qsStep (com, st)).1.filter p,
           (l.foldl qsStep (com, st)).2.map (fun qb => (qb.1, qb.2.filter p))) := by
  intro l
  induction l with
  | nil => intro com st hst; simp
  | cons c l ih =>
    intro com st hst
    rw [List.foldl_cons]
    by_cases hpc : p c = true
    · rw [List.filter_cons_of_pos hpc, List.foldl_cons]
      rcases st with _ | ⟨q, b⟩
      · simp only [Option.map_none']
        by_cases hqc : isQuoteChar c = true
        · rw [show qsStep (com, none) c = (com, some (c, [])) by
              simp [qsStep, hqc],
            show qsStep (com.filter p, none) c = (com.filter p, some (c, [])) by
              simp [qsStep, hqc]]
          have := ih com (some (c, []))
            (fun q' b' h => by cases h; exact hqc)
          simpa using this
        · rw [show qsStep (com, none) c = (com ++ [c], none) by
              simp [qsStep, hqc],
            show qsStep (com.filter p, none) c = (com.filter p ++ [c], none) by
              simp [qsStep, hqc]]
          have h2 : com.filter p ++ [c] = (com ++ [c]).filter p := by
            simp [List.filter_append, hpc]
          rw [h2]
          have := ih (com ++ [c]) none (fun q' b' h => by cases h)
          simpa using this
      · simp only [Option.map_some']
        have hq := hst q b rfl
        by_cases hcq : (c == q) = true
        · rw [show qsStep (com, some (q, b)) c
              = (com ++ q :: (b ++ [q]), none) by simp [qsStep, hcq],
            show qsStep (com.filter p, some (q, b.filter p)) c
              = (com.filter p ++ q :: (b.filter p ++ [q]), none) by
              simp [qsStep, hcq]]
          have h2 : com.filter p ++ q :: (b.filter p ++ [q])
              = (com ++ q :: (b ++ [q])).filter p := by
            simp [List.filter_append, List.filter_cons, hp q hq]
          rw [h2]
          have := ih (com ++ q :: (b ++ [q])) none (fun q' b' h => by cases h)
          simpa using this
        · rw [show qsStep (com, some (q, b)) c = (com, some (q, b ++ [c])) by
              simp [qsStep, hcq],
            show qsStep (com.filter p, some (q, b.filter p)) c
              = (com.filter p, some (q, b.filter p ++ [c])) by
              simp [qsStep, hcq]]
          have h2 : b.filter p ++ [c] = (b ++ [c]).filter p := by
            simp [List.filter_append, hpc]
          rw [h2]
          have := ih com (some (q, b ++ [c]))
            (fun q' b' h => by cases h; exact hq)
          simpa using this
    · have hqc : isQuoteChar c = false := by
        cases hcqb : isQuoteChar c with
        | false => rfl
        | true => exact absurd (hp c hcqb) (by simp [hpc])
      rw [List.filter_cons_of_neg (by simp [hpc])]
      rcases st with _ | ⟨q, b⟩
      · simp only [Option.map_none']
        rw [show qsStep (com, none) c = (com ++ [c], none) by
            simp [qsStep, hqc]]
        have h2 : com.filter p = (com ++ [c]).filter p := by
          simp [List.filter_append, hpc]
        rw [h2]
        have := ih (com ++ [c]) none (fun q' b' h => by cases h)
        simpa using this
      · simp only [Option.map_some']
        have hq := hst q b rfl
        have hcq : (c == q) = false := by
          rw [beq_eq_false_iff_ne]
          intro hceq
          rw [hceq, hq] at hqc
          cases hqc
        rw [show qsStep (com, some (q, b)) c = (com, some (q, b ++ [c])) by
            simp [qsStep, hcq]]
        have h2 : b.filter p = (b ++ [c]).filter p := by
          simp [List.filter_append, hpc]
        rw [h2]
        have := ih com (some (q, b ++ [c]))
          (fun q' b' h => by cases h; exact hq)
        simpa using this

theorem quoteScan_filter (p : Char → Bool)
    (hp : ∀ c, isQuoteChar c = true → p c = true) (s : Str) :
    quoteScan (s.filter p) = (quoteScan s).filter p := by
  have h := foldl_qsStep_filter p hp s [] none (fun q b hqb => by cases hqb)
  rw [quoteScan, quoteScan]
  simp only [List.filter_nil, Option.map_none'] at h
  rw [h]

/-! Lemmas on the lookback scan -/

theorem scanFrom_eq_firstOpen (fns : List Str) (doc : List Str) :
    ∀ (left : Nat) (line : Str) (carry curIdx : Nat),
      scanFrom fns doc line carry curIdx left
        = (match firstOpenAux doc line carry curIdx left with
           | some nm => fns.contains nm
           | none => false) := by
  intro left
  induction left with
  | zero =>
    intro line carry curIdx
    rw [scanFrom.eq_def, firstOpenAux.eq_def]
    rcases hres : processLine line carry with ⟨st, neg⟩
    cases st <;> simp [hres]
  | succ l ih =>
    intro line carry curIdx
    rw [scanFrom.eq_def, firstOpenAux.eq_def]
    rcases hres : processLine line carry with ⟨st, neg⟩
    cases st with
    | cons top rest => simp [hres]
    | nil =>
      cases curIdx with
      | zero => simp [hres]
      | succ c =>
        simp only [hres]
        exact ih _ _ _

theorem scanFrom_frame (fns : List Str) (d₁ d₂ : List Str) :
    ∀ (left : Nat) (line : Str) (carry : Nat) (c₁ c₂ : Nat),
      (∀ j, 1 ≤ j → j ≤ left →
        ((j ≤ c₁ ↔ j ≤ c₂)
          ∧ (j ≤ c₁ → lineAt d₁ (c₁ - j) = lineAt d₂ (c₂ - j)))) →
      scanFrom fns d₁ line carry c₁ left = scanFrom fns d₂ line carry c₂ left := by
  intro left
  induction left with
  | zero =>
    intro line carry c₁ c₂ _
    rw [scanFrom.eq_def, scanFrom.eq_def]
  | succ l ih =>
    intro line carry c₁ c₂ h
    rw [scanFrom.eq_def, scanFrom.eq_def]
    rcases hres : processLine line carry with ⟨st, neg⟩
    cases st with
    | cons top rest => simp [hres]
    | nil =>
      have h1 := h 1 (by omega) (by omega)
      cases c₁ with
      | zero =>
        have hc₂ : c₂ = 0 := by
          rcases Nat.eq_zero_or_pos c₂ with h0 | h0
          · exact h0
          · exact absurd (h1.1.mpr h0) (by omega)
        subst hc₂
        simp [hres]
      | succ a =>
        have hc₂ : 1 ≤ c₂ := h1.1.mp (by omega)
        rcases c₂ with _ | b
        · omega
        · simp only [hres]
          have hline : lineAt d₁ a = lineAt d₂ b := by
            have := h1.2 (by omega)
            simpa [Nat.succ_sub_succ] using this
          rw [hline]
          apply ih
          intro j hj1 hjl
          have hj := h (j + 1) (by omega) (by omega)
          refine ⟨?_, ?_⟩
          · constructor
            · intro hja
              have := hj.1.mp (by omega)
              omega
            · intro hjb
              have := hj.1.mpr (by omega)
              omega
          · intro hja
            have := hj.2 (by omega)
            simpa [Nat.succ_sub_succ] using this

/-! Claims about the context detector and the assembler -/

/-- Claim C1, counterexample: on the single line `foo(clsx("` with
`functionNames = ["clsx"]`, the reconciled stack at the end of the scanned
line holds two unresolved opens (`foo(` below `clsx(`), yet `isInContext`
already returns a match there: the code tests the innermost open whenever
the stack is non-empty (`if (parensStack.length)`), it does not require the
stack to resolve to exactly one level, and it does not keep scanning. -/
theorem C1_counterexample :
    (processLine (quoteScan ((lineAt ["foo(clsx(\"".data] 0).take 10)) 0).1.length
      = 2
    ∧ ¬ (processLine
        (quoteScan ((lineAt ["foo(clsx(\"".data] 0).take 10)) 0).1.length = 1
    ∧ isInContext ⟨true, [], ["clsx".data]⟩ ["foo(clsx(\"".data] 0 10 = true :=
  ⟨by decide, by decide, by decide⟩

/-- Claim C1, amended: with non-empty (indeed arbitrary) `functionNames`, no
attribute names, and the quote gate passed, the call-nesting check reports a
match iff the first scanned line whose reconciled stack is non-empty has its
innermost (top-of-stack) open call's identifier in `functionNames`: a stack
deeper than one still yields a verdict at that line — taken against the
innermost call, not the outer one — and the scan stops there instead of
continuing. -/
theorem C1_call_nesting (b : Bool) (fns : List Str) (doc : List Str)
    (pl pc : Nat)
    (hgate : b = true →
      (quoteScan ((lineAt doc pl).take pc)).length
        ≠ ((lineAt doc pl).take pc).length) :
    isInContext ⟨b, [], fns⟩ doc pl pc
      = (match firstOpenAux doc (quoteScan ((lineAt doc pl).take pc)) 0 pl 9 with
         | some nm => fns.contains nm
         | none => false) := by
  have hb : (b && ((quoteScan ((lineAt doc pl).take pc)).length
      == ((lineAt doc pl).take pc).length)) = false := by
    cases b with
    | false => rfl
    | true =>
      rw [Bool.true_and, beq_eq_false_iff_ne]
      exact hgate rfl
  simp only [isInContext, hb, Bool.false_eq_true, if_false, List.isEmpty_nil,
    if_true]
  cases hfe : fns.isEmpty with
  | true =>
    rw [List.isEmpty_iff.mp hfe]
    cases firstOpenAux doc (quoteScan ((lineAt doc pl).take pc)) 0 pl 9 <;> rfl
  | false => exact scanFrom_eq_firstOpen fns doc 9 _ 0 pl

/-- Witness for the amended C1 on the line `clsx("`. -/
theorem C1_witness :
    (quoteScan ((lineAt ["clsx(\"".data] 0).take 6)).length
      ≠ ((lineAt ["clsx(\"".data] 0).take 6).length
    ∧ isInContext ⟨true, [], ["clsx".data]⟩ ["clsx(\"".data] 0 6
      = (match firstOpenAux ["clsx(\"".data]
            (quoteScan ((lineAt ["clsx(\"".data] 0).take 6)) 0 0 9 with
         | some nm => ["clsx".data].contains nm
         | none => false) :=
  ⟨by decide,
    C1_call_nesting true ["clsx".data] ["clsx(\"".data] 0 6 (fun _ => by decide)⟩

/-- Claim C2: with `functionNames = ["clsx"]` and quote required: the line
`clsx("` is a match; `foo("` is not; `foo(clsx("` is a match (the innermost
enclosing call, `clsx`, is the one tested); a call opened on an earlier line
(`clsx(` on line 0, cursor after the quote on line 1) still resolves to a
match; and the matched opening call resolves across several lookback lines
with carry-over closes (the multi-line example from the repository's
tests). -/
theorem C2_examples :
    isInContext ⟨true, [], ["clsx".data]⟩ ["clsx(\"".data] 0 6 = true
    ∧ isInContext ⟨true, [], ["clsx".data]⟩ ["foo(\"".data] 0 5 = false
    ∧ isInContext ⟨true, [], ["clsx".data]⟩ ["foo(clsx(\"".data] 0 10 = true
    ∧ isInContext ⟨true, [], ["clsx".data]⟩ ["clsx(".data, "\"".data] 1 1 = true
    ∧ isInContext ⟨true, [], ["clsx".data]⟩
        ["clsx(".data, "\"other\",".data, "(() => \x7b".data,
         "return bar() && \"header\";".data, "\x7d),".data,
         "foo() && \"".data] 5 10 = true :=
  ⟨by decide, by decide, by decide, by decide, by decide⟩

/-- Claim C7: the quote gate: (1) when a quote is required and every quote in
the cursor-line prefix pairs off (the regex consumes the whole prefix),
`isInContext` fails; (2) back-ticks are invisible to the balance scan —
filtering them out of the input commutes with the scan; (3) appending an
unterminated back-tick to a balanced prefix leaves it balanced, so the
position stays out of context exactly as if the back-tick were absent;
(4) when an open quote exists, everything after it is discarded: the
verdict only depends on the text strictly before the open quote (two
documents whose cursor lines differ only in the quote-free text after the
open quote, and agree on the lookback lines, get the same verdict). -/
theorem C7_quote_gate :
    (∀ (opts : Opts) (doc : List Str) (pl pc : Nat), opts.quote = true →
      quoteScan ((lineAt doc pl).take pc) = (lineAt doc pl).take pc →
      isInContext opts doc pl pc = false)
    ∧ (∀ s : Str, quoteScan (s.filter (fun c => !(c == Char.ofNat 96)))
        = (quoteScan s).filter (fun c => !(c == Char.ofNat 96)))
    ∧ (∀ s : Str, quoteScan s = s → quoteScan (s ++ [Char.ofNat 96]) = s ++ ['`'])
    ∧ (∀ (opts : Opts) (d₁ d₂ : List Str) (pl : Nat) (lc t₁ t₂ : Str),
        lineAt d₁ pl = lc ++ '"' :: t₁ → lineAt d₂ pl = lc ++ '"' :: t₂ →
        quoteScan lc = lc →
        (∀ c ∈ t₁, isQuoteChar c = false) → (∀ c ∈ t₂, isQuoteChar c = false) →
        (∀ j, 1 ≤ j → j ≤ 9 → j ≤ pl →
          lineAt d₁ (pl - j) = lineAt d₂ (pl - j)) →
        isInContext opts d₁ pl (lc.length + 1 + t₁.length)
          = isInContext opts d₂ pl (lc.length + 1 + t₂.length)) := by
  refine ⟨?_, ?_, ?_, ?_⟩
  · intro opts doc pl pc hq hbal
    simp only [isInContext, hq, hbal, Bool.true_and, beq_self_eq_true, if_true]
  · intro s
    refine quoteScan_filter _ ?_ s
    intro c hc
    rcases isQuoteChar_cases hc with rfl | rfl <;> decide
  · intro s hs
    exact quoteScan_append_nonquote hs (by decide)
  · intro opts d₁ d₂ pl lc t₁ t₂ h₁ h₂ hbal hq₁ hq₂ hlines
    have htake₁ : (lc ++ '"' :: t₁).take (lc.length + 1 + t₁.length)
        = lc ++ '"' :: t₁ := List.take_of_length_le (by simp; omega)
    have htake₂ : (lc ++ '"' :: t₂).take (lc.length + 1 + t₂.length)
        = lc ++ '"' :: t₂ := List.take_of_length_le (by simp; omega)
    have hscan₁ : quoteScan (lc ++ '"' :: t₁) = lc :=
      quoteScan_open_quote hbal (by decide) hq₁
    have hscan₂ : quoteScan (lc ++ '"' :: t₂) = lc :=
      quoteScan_open_quote hbal (by decide) hq₂
    have hlen₁ : (lc.length == (lc ++ '"' :: t₁).length) = false := by
      rw [beq_eq_false_iff_ne]
      simp
    have hlen₂ : (lc.length == (lc ++ '"' :: t₂).length) = false := by
      rw [beq_eq_false_iff_ne]
      simp
    have hframe := scanFrom_frame opts.fns d₁ d₂ 9 lc 0 pl pl
      (fun j hj1 hj9 => ⟨Iff.rfl, fun hjp => hlines j hj1 hj9 hjp⟩)
    simp only [isInContext, h₁, h₂, htake₁, htake₂, hscan₁, hscan₂, hlen₁,
      hlen₂, Bool.and_false, Bool.false_eq_true, if_false, hframe]

/-- Witness for C7: the balanced-prefix clause on `ab` and the truncation
clause on `clsx("x` versus `clsx("yz`. -/
theorem C7_witness :
    quoteScan "ab".data = "ab".data
    ∧ isInContext ⟨true, [], ["clsx".data]⟩ ["ab".data] 0 2 = false
    ∧ isInContext ⟨true, [], ["clsx".data]⟩
        ["clsx(".data, "clsx(\"x".data] 1 7
      = isInContext ⟨true, [], ["clsx".data]⟩
        ["clsx(".data, "clsx(\"yz".data] 1 8 :=
  ⟨by decide,
    C7_quote_gate.1 ⟨true, [], ["clsx".data]⟩ ["ab".data] 0 2 rfl (by decide),
    C7_quote_gate.2.2.2 ⟨true, [], ["clsx".data]⟩
      ["clsx(".data, "clsx(\"x".data] ["clsx(".data, "clsx(\"yz".data] 1
      "clsx(".data "x".data "yz".data (by decide) (by decide) (by decide)
      (by decide) (by decide)
      (fun j hj1 _ hjp => by
        have hj : j = 1 := by omega
        subst hj
        decide)⟩

/-- Claim C10: the verdict of `isInContext` is a deterministic function of the
cursor-line text strictly before the cursor and the full text of at most the
9 lines immediately preceding the cursor's line: any two documents and
positions agreeing on that window (same distance to the window's start, same
line texts) get the same verdict; characters at or after the cursor, on
later lines, or more than 9 lines above never influence it. -/
theorem C10_window (opts : Opts) (d₁ d₂ : List Str) (pl₁ pl₂ pc : Nat)
    (hcur : (lineAt d₁ pl₁).take pc = (lineAt d₂ pl₂).take pc)
    (hwin : ∀ j, 1 ≤ j → j ≤ 9 →
      ((j ≤ pl₁ ↔ j ≤ pl₂)
        ∧ (j ≤ pl₁ → lineAt d₁ (pl₁ - j) = lineAt d₂ (pl₂ - j)))) :
    isInContext opts d₁ pl₁ pc = isInContext opts d₂ pl₂ pc := by
  have hframe := scanFrom_frame opts.fns d₁ d₂ 9
    (quoteScan ((lineAt d₁ pl₁).take pc)) 0 pl₁ pl₂ hwin
  simp only [isInContext, ← hcur, hframe]

/-- Witness for C10: the same nine-line window at cursor line 9 of one
document and cursor line 10 of another — the second document carries an
extra tenth-above line (with stray parens) plus a changed cursor-line suffix
and a later line, none of which influences the verdict. -/
theorem C10_witness :
    (lineAt ["x".data, "x".data, "x".data, "x".data, "x".data, "x".data,
        "x".data, "x".data, "clsx(".data, "\"abc".data] 9).take 1
      = (lineAt ["x))".data, "x".data, "x".data, "x".data, "x".data, "x".data,
          "x".data, "x".data, "x".data, "clsx(".data, "\"xyz".data,
          "later)".data] 10).take 1
    ∧ isInContext ⟨true, [], ["clsx".data]⟩
        ["x".data, "x".data, "x".data, "x".data, "x".data, "x".data,
         "x".data, "x".data, "clsx(".data, "\"abc".data] 9 1
      = isInContext ⟨true, [], ["clsx".data]⟩
        ["x))".data, "x".data, "x".data, "x".data, "x".data, "x".data,
         "x".data, "x".data, "x".data, "clsx(".data, "\"xyz".data,
         "later)".data] 10 1 :=
  ⟨by decide,
    C10_window ⟨true, [], ["clsx".data]⟩
      ["x".data, "x".data, "x".data, "x".data, "x".data, "x".data,
       "x".data, "x".data, "clsx(".data, "\"abc".data]
      ["x))".data, "x".data, "x".data, "x".data, "x".data, "x".data,
       "x".data, "x".data, "x".data, "clsx(".data, "\"xyz".data,
       "later)".data] 9 10 1 (by decide)
      (fun j hj1 hj9 => by
        refine ⟨⟨fun _ => by omega, fun _ => hj9⟩, ?_⟩
        intro hj
        interval_cases j <;> decide)⟩

/-- Claim C4: the completion assembler (spec-modelled, see `assemble`): when
the detector did not match it returns none — never an empty visible list;
when it matched, the candidates are exactly the symbols whose text starts
with the typed prefix case-insensitively, in the symbols' (`items()`) order,
each with label = symbol text and, when no replace range is available,
insertText = symbol text with the typed prefix stripped; on the repository
test's data (`but` typed over `button`, `button-primary`, `card`) this gives
labels `button`, `button-primary` with insert texts `ton`, `ton-primary`. -/
theorem C4_assemble_spec :
    (∀ (typed : Str) (symbols : List Str) (hasRange : Bool),
      assemble false typed symbols hasRange = none)
    ∧ (∀ (typed : Str) (symbols : List Str) (hasRange : Bool),
        ((assemble true typed symbols hasRange).getD []).map (·.label)
          = symbols.filter (fun s => ciStartsWith s typed))
    ∧ (∀ (typed : Str) (symbols : List Str),
        ((assemble true typed symbols false).getD []).map (·.insertText)
          = (symbols.filter (fun s => ciStartsWith s typed)).map
              (fun s => s.drop typed.length))
    ∧ assemble true "but".data
        ["button".data, "button-primary".data, "card".data] false
      = some [⟨"button".data, "ton".data⟩,
              ⟨"button-primary".data, "ton-primary".data⟩] := by
  refine ⟨fun _ _ _ => rfl, ?_, ?_, by decide⟩
  · intro typed symbols hasRange
    simp only [assemble, if_true, Option.getD_some, List.map_map]
    exact List.map_id _
  · intro typed symbols
    simp only [assemble, if_true, Option.getD_some, List.map_map]
    rfl

end CssAc
